import Mathlib

/-
Verification development for the nexusq broadcast channel.

The definitions below are shallow embeddings of the Rust sources:
  * `Broadcast.*`   — src/broadcast/{mod,sender,receiver,receiver_tracker}.rs,
    modelled as a transition system whose atomic actions are whole
    `send` / `recv` / `add_stream` / receiver-drop operations.
  * `publish`       — src/channel/tracker/sequential_producer_tracker.rs
    (the compare-exchange loop, also the `committed` CAS in the senders).
  * `Tracker.*`     — src/channel/tracker/broadcast_tracker.rs
    (per-slot reference counters plus the tail watermark).
  * `ring_new` / drop counting — src/channel/mod.rs (`Ring::new`, `Drop for Ring`)
    and src/broadcast/mod.rs (`Drop for Core`).
  * `Chan.batch_recv` — src/channel/receiver.rs (`ReceiverCore::batch_recv`).
Machine integers (isize / usize) are modelled as `Int` / `Nat`.
-/

namespace Nexusq

/-- Largest positive signed 64-bit value, `isize::MAX` on a 64-bit target. -/
def isizeMax : Int := 2 ^ 63 - 1

/-- `SequentialProducerTracker::publish` / the senders' `committed` CAS loop:
the compare-exchange from `id - 1` to `id` succeeds exactly when the current
value is `id - 1`; otherwise the caller keeps spinning (modelled as `none`). -/
def publish (published id : Int) : Option Int :=
  if published = id - 1 then some id else none

/-- Fold a sequence of completed `publish` calls over the watermark. -/
def run_publish (published : Int) : List Int → Option Int
  | [] => some published
  | id :: rest =>
    match publish published id with
    | some p => run_publish p rest
    | none => none

theorem getD_set_ne {α : Type} (l : List α) {i j : Nat} (a d : α) (h : i ≠ j) :
    (l.set i a).getD j d = l.getD j d := by
  simp [List.getD_eq_getElem?_getD, List.getElem?_set, h]

theorem getD_set_self {α : Type} (l : List α) {i : Nat} (a d : α) (h : i < l.length) :
    (l.set i a).getD i d = a := by
  simp [List.getD_eq_getElem?_getD, List.getElem?_set, h]

namespace Broadcast

/-- One receiver handle: its registration position (`start`, ghost data used
to state delivery), its private cursor (`internal_cursor`), and the list of
values returned by its completed `recv` calls (ghost data). -/
structure BRecv (T : Type) where
  start : Int
  cursor : Int
  received : List T
  deriving DecidableEq, Repr

/-- State of `broadcast::Core` together with all live handles: ring storage,
capacity, the `claimed` and `committed` atomics, the sender's
`cached_slowest_reader`, the tracker's `slowest_cache`, and the live
receivers (a killed receiver's cell is skipped by every scan, so dropping a
receiver is modelled by removing it from the list). -/
structure BState (T : Type) where
  capacity : Nat
  ring : List T
  claimed : Int
  committed : Int
  cached_slowest_reader : Int
  slowest_cache : Int
  receivers : List (BRecv T)
  deriving DecidableEq, Repr

/-- Minimum cursor over a list of receivers, `isize::MAX` when empty (the
value `ReceiverTracker::slowest` starts its scan from). -/
def minCursor {T : Type} (rs : List (BRecv T)) : Int :=
  rs.foldr (fun r m => min r.cursor m) isizeMax

/-- `ReceiverTracker::slowest(min)`: return the cache when it beats `min`;
otherwise scan, returning the first position `≤ min` early, and caching the
full minimum when no position is `≤ min`.  Result: (returned value, new cache). -/
def slowest {T : Type} (rs : List (BRecv T)) (cache : Int) (min : Int) : Int × Int :=
  if cache > min then (cache, cache)
  else
    match rs.find? (fun r => decide (r.cursor ≤ min)) with
    | some r => (r.cursor, cache)
    | none => (minCursor rs, minCursor rs)

/-- Outcome of one atomic operation: a new state, a block (the operation's
wait loop cannot complete from this state), or a Rust panic. -/
inductive StepRes (T : Type) where
  | ok (s : BState T)
  | blocked
  | panicked
  deriving DecidableEq, Repr

/-- `Sender::claim` (src/broadcast/sender.rs): take the next sequence id and
wait until the slowest reader has moved past `claimed - capacity`.  `none`
models the wait loop never completing from this state; `some` returns the
state with the sender's and the tracker's caches updated as in the source. -/
def claim {T : Type} (s : BState T) : Option (BState T) :=
  if s.cached_slowest_reader ≠ -1 ∧
      s.cached_slowest_reader > s.claimed - (s.capacity : Int) then some s
  else if (slowest s.receivers s.slowest_cache (s.claimed - (s.capacity : Int))).1 >
      s.claimed - (s.capacity : Int) then
    some { s with
      cached_slowest_reader :=
        (slowest s.receivers s.slowest_cache (s.claimed - (s.capacity : Int))).1,
      slowest_cache :=
        (slowest s.receivers s.slowest_cache (s.claimed - (s.capacity : Int))).2 }
  else none

/-- `Sender::send` (src/broadcast/sender.rs): `claim` a sequence id, compute
the slot index (`claimed_id % capacity` — a Rust panic when capacity is 0),
replace the slot value, and commit via the compare-exchange loop.  The
producer writes the values of `vs` in sequence order (`d` is the default used
past the end). -/
def send {T : Type} (vs : List T) (d : T) (s : BState T) : StepRes T :=
  match claim s with
  | none => .blocked
  | some s1 =>
    if s1.capacity = 0 then .panicked
    else
      match publish s1.committed s.claimed with
      | none => .blocked
      | some c =>
        .ok { s1 with
          ring := s1.ring.set ((s.claimed % (s1.capacity : Int)).toNat)
            (vs.getD s.claimed.toNat d)
          committed := c
          claimed := s.claimed + 1 }

/-- `Receiver::recv` for receiver `i` (src/broadcast/receiver.rs): the
blocking loop around `try_read_next`.  It completes exactly when
`internal_cursor ≤ committed`; it then clones the slot at
`internal_cursor % capacity` (a Rust panic when capacity is 0) and increments
the cursor. -/
def recv {T : Type} (d : T) (s : BState T) (i : Nat) : StepRes T :=
  match s.receivers[i]? with
  | none => .blocked
  | some r =>
    if r.cursor > s.committed then .blocked
    else if s.capacity = 0 then .panicked
    else
      let index := (r.cursor % (s.capacity : Int)).toNat
      let value := s.ring.getD index d
      let r' : BRecv T := { r with cursor := r.cursor + 1, received := r.received ++ [value] }
      .ok { s with receivers := s.receivers.set i r' }

/-- `Receiver::add_stream` / `From<Arc<Core<T>>> for Receiver`: register a new
receiver at `committed.clamp(0, isize::MAX)`.  Since `committed` is an `isize`
the upper clamp is the identity, so the cursor is `max 0 committed`.
`add_stream` is called on an existing receiver, hence only enabled when one
is live. -/
def add_stream {T : Type} (s : BState T) : StepRes T :=
  if s.receivers.isEmpty then .blocked
  else
    let at0 := max 0 s.committed
    .ok { s with receivers := s.receivers ++ [⟨at0, at0, []⟩] }

/-- `Drop for Receiver` / `ReceiverTracker::kill_receiver`: the cell is marked
dead and every later scan skips it, so the receiver is removed. -/
def drop_receiver {T : Type} (s : BState T) (i : Nat) : StepRes T :=
  if i < s.receivers.length then .ok { s with receivers := s.receivers.eraseIdx i }
  else .blocked

/-- The atomic operations of the broadcast channel. -/
inductive BAct where
  | send
  | recv (i : Nat)
  | register
  | dropRecv (i : Nat)
  deriving DecidableEq, Repr

/-- Dispatch one completed operation. -/
def bstep {T : Type} (vs : List T) (d : T) (s : BState T) : BAct → StepRes T
  | .send => send vs d s
  | .recv i => recv d s i
  | .register => add_stream s
  | .dropRecv i => drop_receiver s i

/-- Run a sequence of completed operations; `none` when some operation in the
sequence cannot complete (blocks or panics) from its state. -/
def run {T : Type} (vs : List T) (d : T) (s : BState T) : List BAct → Option (BState T)
  | [] => some s
  | a :: tr =>
    match bstep vs d s a with
    | .ok s' => run vs d s' tr
    | _ => none

/-- `broadcast::channel(size)` followed by cloning until `K` receivers exist:
`Core::new` leaves `claimed = 0`, `committed = -1`, both caches `-1`, and the
receivers all register at `(-1).clamp(0, MAX) = 0` before any send. -/
def initChannel (T : Type) (cap K : Nat) (d : T) : BState T :=
  { capacity := cap
    ring := List.replicate cap d
    claimed := 0
    committed := -1
    cached_slowest_reader := -1
    slowest_cache := -1
    receivers := List.replicate K ⟨0, 0, []⟩ }

/-- `Receiver::batch_recv` (src/broadcast/receiver.rs): read every id from the
cursor up to `committed`, as one copy when the range does not wrap and as two
copies otherwise, appending to `res`.  The cursor is not advanced (as in the
source).  `none` models the `NoNewData` error. -/
def batch_recv {T : Type} (s : BState T) (i : Nat) (res : List T) :
    Option (List T) :=
  match s.receivers[i]? with
  | none => none
  | some r =>
    if r.cursor > s.committed then none
    else
      let num_to_read := (s.committed + 1 - r.cursor).toNat
      let from_index := (r.cursor % (s.capacity : Int)).toNat
      let to_index := from_index + num_to_read
      if to_index ≤ s.capacity then
        some (res ++ (s.ring.drop from_index).take num_to_read)
      else
        some ((res ++ (s.ring.drop from_index).take (s.capacity - from_index))
          ++ s.ring.take (to_index - s.capacity))

/-- Arithmetic helper: reducing a nonnegative `Int` modulo a `Nat` capacity
is reduction of its `toNat` form. -/
theorem emod_toNat (c : Int) (cap : Nat) (hc : 0 ≤ c) :
    (c % (cap : Int)).toNat = c.toNat % cap := by
  lift c to Nat using hc
  rw [← Int.ofNat_emod]
  simp only [Int.toNat_natCast, Int.toNat_ofNat]

/-- Two ids closer than the capacity occupy distinct slots. -/
theorem mod_ne_of_sub_lt {j k cap : Nat} (h1 : j < k) (h2 : k - j < cap) :
    j % cap ≠ k % cap := by
  intro h
  have hdvd : cap ∣ k - j := (Nat.modEq_iff_dvd' h1.le).mp h
  have := Nat.le_of_dvd (by omega) hdvd
  omega

theorem minCursor_le {T : Type} {rs : List (BRecv T)} {r : BRecv T} (hr : r ∈ rs) :
    minCursor rs ≤ r.cursor := by
  induction rs with
  | nil => cases hr
  | cons x xs ih =>
    rcases List.mem_cons.mp hr with h | h
    · subst h; exact min_le_left _ _
    · exact le_trans (min_le_right _ _) (ih h)


/-- The system invariant: ring and counter bookkeeping plus the delivery
ghost facts.  `vs` is the sequence of produced values, `d` a default. -/
structure Inv {T : Type} (vs : List T) (d : T) (s : BState T) : Prop where
  hlen : s.ring.length = s.capacity
  hcap : 0 < s.capacity
  hclaim : 0 ≤ s.claimed
  hcomm : s.committed = s.claimed - 1
  hcur : ∀ r ∈ s.receivers, 0 ≤ r.start ∧ r.start ≤ r.cursor ∧
    r.cursor ≤ s.committed + 1 ∧ s.committed - (s.capacity : Int) < r.cursor
  hslice : ∀ r ∈ s.receivers,
    r.received = (List.range' r.start.toNat (r.cursor - r.start).toNat).map
      (fun j => vs.getD j d)
  hwin : ∀ j : Nat, (j : Int) ≤ s.committed → s.committed < (j : Int) + s.capacity →
    s.ring.getD (j % s.capacity) d = vs.getD j d
  hsc : s.receivers = [] ∨ s.cached_slowest_reader = -1 ∨
    (s.cached_slowest_reader ≤ s.committed ∧
      ∀ r ∈ s.receivers, s.cached_slowest_reader ≤ r.cursor)
  htc : s.receivers = [] ∨ s.slowest_cache = -1 ∨
    (s.slowest_cache ≤ s.committed ∧ ∀ r ∈ s.receivers, s.slowest_cache ≤ r.cursor)

theorem inv_init {T : Type} (vs : List T) (d : T) (cap K : Nat) (hcap : 0 < cap) :
    Inv vs d (initChannel T cap K d) := by
  refine ⟨by simp [initChannel], hcap, by simp [initChannel], by simp [initChannel],
    ?_, ?_, ?_, Or.inr (Or.inl rfl), Or.inr (Or.inl rfl)⟩
  · intro r hr
    have := List.eq_of_mem_replicate hr
    subst this
    refine ⟨le_refl _, le_refl _, by simp [initChannel], ?_⟩
    simp [initChannel]
    omega
  · intro r hr
    have := List.eq_of_mem_replicate hr
    subst this
    simp
  · intro j hj hj2
    simp only [initChannel] at hj
    omega

theorem claim_some {T : Type} {s s1 : BState T} (h : claim s = some s1) :
    s1.capacity = s.capacity ∧ s1.ring = s.ring ∧ s1.claimed = s.claimed ∧
    s1.committed = s.committed ∧ s1.receivers = s.receivers := by
  unfold claim at h
  split at h
  · cases h; exact ⟨rfl, rfl, rfl, rfl, rfl⟩
  · split at h
    · cases h; exact ⟨rfl, rfl, rfl, rfl, rfl⟩
    · cases h

/-- Exiting the claim wait loop means every live receiver is past the slot
about to be overwritten. -/
theorem claim_cursor {T : Type} {vs : List T} {d : T} {s s1 : BState T}
    (hI : Inv vs d s) (h : claim s = some s1) :
    ∀ r ∈ s.receivers, s.claimed - (s.capacity : Int) < r.cursor := by
  intro r hr
  have hcur := hI.hcur r hr
  unfold claim at h
  split at h
  case isTrue hc =>
    rcases hI.hsc with hnil | hneg | ⟨_, hall⟩
    · rw [hnil] at hr; cases hr
    · exact absurd hneg hc.1
    · exact lt_of_lt_of_le hc.2 (hall r hr)
  case isFalse hc =>
    split at h
    case isTrue hs =>
      by_cases htc : s.slowest_cache > s.claimed - (s.capacity : Int)
      · rcases hI.htc with hnil | hneg | ⟨_, hall⟩
        · rw [hnil] at hr; cases hr
        · rw [hneg] at htc; omega
        · exact lt_of_lt_of_le htc (hall r hr)
      · rw [slowest, if_neg htc] at hs
        cases hfind : s.receivers.find? (fun r => decide (r.cursor ≤ s.claimed - (s.capacity : Int))) with
        | some r0 =>
          rw [hfind] at hs
          have := List.find?_some hfind
          simp at this hs
          omega
        | none =>
          have := List.find?_eq_none.mp hfind r hr
          simp at this
          exact this
    case isFalse => cases h

/-- Exiting the claim wait loop leaves both caches bounded by the id being
claimed and by every live cursor. -/
theorem claim_cache {T : Type} {vs : List T} {d : T} {s s1 : BState T}
    (hI : Inv vs d s) (h : claim s = some s1) :
    (s.receivers = [] ∨ s1.cached_slowest_reader = -1 ∨
      (s1.cached_slowest_reader ≤ s.claimed ∧
        ∀ r ∈ s.receivers, s1.cached_slowest_reader ≤ r.cursor)) ∧
    (s.receivers = [] ∨ s1.slowest_cache = -1 ∨
      (s1.slowest_cache ≤ s.claimed ∧
        ∀ r ∈ s.receivers, s1.slowest_cache ≤ r.cursor)) := by
  have hcomm := hI.hcomm
  unfold claim at h
  split at h
  case isTrue hc =>
    cases h
    constructor
    · rcases hI.hsc with hnil | hneg | ⟨hb, hall⟩
      · exact Or.inl hnil
      · exact Or.inr (Or.inl hneg)
      · exact Or.inr (Or.inr ⟨by omega, hall⟩)
    · rcases hI.htc with hnil | hneg | ⟨hb, hall⟩
      · exact Or.inl hnil
      · exact Or.inr (Or.inl hneg)
      · exact Or.inr (Or.inr ⟨by omega, hall⟩)
  case isFalse hc =>
    split at h
    case isTrue hs =>
      cases h
      by_cases htc : s.slowest_cache > s.claimed - (s.capacity : Int)
      · simp only [slowest, if_pos htc]
        rcases hI.htc with hnil | hneg | ⟨hb, hall⟩
        · exact ⟨Or.inl hnil, Or.inl hnil⟩
        · exact ⟨Or.inr (Or.inl hneg), Or.inr (Or.inl hneg)⟩
        · exact ⟨Or.inr (Or.inr ⟨by omega, hall⟩), Or.inr (Or.inr ⟨by omega, hall⟩)⟩
      · simp only [slowest, if_neg htc]
        cases hfind : s.receivers.find? (fun r => decide (r.cursor ≤ s.claimed - (s.capacity : Int))) with
        | some r0 =>
          exfalso
          rw [slowest, if_neg htc, hfind] at hs
          have := List.find?_some hfind
          simp at this hs
          omega
        | none =>
          by_cases hnil : s.receivers = []
          · exact ⟨Or.inl hnil, Or.inl hnil⟩
          · have hmin : ∀ r ∈ s.receivers, minCursor s.receivers ≤ r.cursor :=
              fun r hr => minCursor_le hr
            have hminc : minCursor s.receivers ≤ s.claimed := by
              rcases List.exists_mem_of_ne_nil _ hnil with ⟨r0, hr0⟩
              have := (hI.hcur r0 hr0).2.2.1
              have := minCursor_le hr0
              omega
            exact ⟨Or.inr (Or.inr ⟨hminc, hmin⟩), Or.inr (Or.inr ⟨hminc, hmin⟩)⟩
    case isFalse => cases h

theorem inv_send {T : Type} {vs : List T} {d : T} {s s' : BState T}
    (hI : Inv vs d s) (h : send vs d s = .ok s') : Inv vs d s' := by
  unfold send at h
  cases hclaim : claim s with
  | none => rw [hclaim] at h; cases h
  | some s1 =>
    rw [hclaim] at h
    dsimp only at h
    obtain ⟨hcapEq, hringEq, hclaimEq, hcommEq, hrecvEq⟩ := claim_some hclaim
    have hcap := hI.hcap
    have hcomm := hI.hcomm
    have hclaim0 := hI.hclaim
    have hlen := hI.hlen
    rw [if_neg (by omega : ¬ s1.capacity = 0)] at h
    have hpub : publish s1.committed s.claimed = some s.claimed := by
      unfold publish
      rw [if_pos (by rw [hcommEq, hcomm])]
    rw [hpub] at h
    injection h with hs'
    subst hs'
    have hkey := claim_cursor hI hclaim
    have hcache := claim_cache hI hclaim
    refine ⟨?_, ?_, ?_, ?_, ?_, ?_, ?_, ?_, ?_⟩
    · simp only [List.length_set, hringEq, hcapEq, hlen]
    · simpa only [hcapEq] using hcap
    · simp only
      omega
    · simp only
      omega
    · intro r hr
      rw [show ({ s1 with
          ring := s1.ring.set ((s.claimed % (s1.capacity : Int)).toNat)
            (vs.getD s.claimed.toNat d), committed := s.claimed,
          claimed := s.claimed + 1 } : BState T).receivers = s.receivers from hrecvEq] at hr
      have h1 := hI.hcur r hr
      have h2 := hkey r hr
      simp only [hcapEq]
      omega
    · intro r hr
      rw [show ({ s1 with
          ring := s1.ring.set ((s.claimed % (s1.capacity : Int)).toNat)
            (vs.getD s.claimed.toNat d), committed := s.claimed,
          claimed := s.claimed + 1 } : BState T).receivers = s.receivers from hrecvEq] at hr
      exact hI.hslice r hr
    · intro j hj1 hj2
      simp only [hcapEq] at hj2 ⊢
      simp only at hj1
      have hidx : (s.claimed % ((s.capacity : Nat) : Int)).toNat = s.claimed.toNat % s.capacity :=
        emod_toNat _ _ hclaim0
      by_cases hjc : j = s.claimed.toNat
      · subst hjc
        rw [hidx]
        have hlt : s.claimed.toNat % s.capacity < s1.ring.length := by
          rw [hringEq, hlen]
          exact Nat.mod_lt _ hcap
        rw [getD_set_self _ _ _ hlt]
      · have hjlt : j < s.claimed.toNat := by omega
        have hsub : s.claimed.toNat - j < s.capacity := by omega
        rw [hidx, getD_set_ne _ _ _ (Ne.symm (mod_ne_of_sub_lt hjlt hsub)), hringEq]
        exact hI.hwin j (by omega) (by omega)
    · rcases hcache.1 with hnil | hneg | ⟨hb, hall⟩
      · exact Or.inl (by simp only [hrecvEq, hnil])
      · exact Or.inr (Or.inl hneg)
      · refine Or.inr (Or.inr ⟨by simp only; omega, ?_⟩)
        intro r hr
        rw [show ({ s1 with
            ring := s1.ring.set ((s.claimed % (s1.capacity : Int)).toNat)
              (vs.getD s.claimed.toNat d), committed := s.claimed,
            claimed := s.claimed + 1 } : BState T).receivers = s.receivers from hrecvEq] at hr
        exact hall r hr
    · rcases hcache.2 with hnil | hneg | ⟨hb, hall⟩
      · exact Or.inl (by simp only [hrecvEq, hnil])
      · exact Or.inr (Or.inl hneg)
      · refine Or.inr (Or.inr ⟨by simp only; omega, ?_⟩)
        intro r hr
        rw [show ({ s1 with
            ring := s1.ring.set ((s.claimed % (s1.capacity : Int)).toNat)
              (vs.getD s.claimed.toNat d), committed := s.claimed,
            claimed := s.claimed + 1 } : BState T).receivers = s.receivers from hrecvEq] at hr
        exact hall r hr

theorem inv_recv {T : Type} {vs : List T} {d : T} {s s' : BState T} {i : Nat}
    (hI : Inv vs d s) (h : recv d s i = .ok s') : Inv vs d s' := by
  unfold recv at h
  cases hget : s.receivers[i]? with
  | none => rw [hget] at h; cases h
  | some r =>
    rw [hget] at h
    dsimp only at h
    split at h
    case isTrue => cases h
    case isFalse hgt =>
      split at h
      case isTrue => cases h
      case isFalse hc0 =>
        injection h with hs'
        subst hs'
        have hmem : r ∈ s.receivers := List.getElem?_mem hget
        have hcur := hI.hcur r hmem
        have hcnn : 0 ≤ r.cursor := le_trans hcur.1 hcur.2.1
        have hvalue : s.ring.getD ((r.cursor % (s.capacity : Int)).toNat) d
            = vs.getD r.cursor.toNat d := by
          rw [emod_toNat _ _ hcnn]
          exact hI.hwin r.cursor.toNat (by omega) (by omega)
        refine ⟨hI.hlen, hI.hcap, hI.hclaim, hI.hcomm, ?_, ?_, hI.hwin, ?_, ?_⟩
        · intro x hx
          rcases List.mem_or_eq_of_mem_set hx with hold | hnew
          · exact hI.hcur x hold
          · subst hnew
            dsimp only
            refine ⟨hcur.1, by omega, by omega, by omega⟩
        · intro x hx
          rcases List.mem_or_eq_of_mem_set hx with hold | hnew
          · exact hI.hslice x hold
          · subst hnew
            dsimp only
            have hsl := hI.hslice r hmem
            have hn : (r.cursor + 1 - r.start).toNat = (r.cursor - r.start).toNat + 1 := by
              omega
            rw [hn, List.range'_concat, List.map_append, hsl]
            simp only [List.map_cons, List.map_nil, one_mul]
            rw [show r.start.toNat + (r.cursor - r.start).toNat = r.cursor.toNat from by omega,
              hvalue]
        · rcases hI.hsc with hnil | hneg | ⟨hb, hall⟩
          · rw [hnil]
            exact Or.inl rfl
          · exact Or.inr (Or.inl hneg)
          · refine Or.inr (Or.inr ⟨hb, ?_⟩)
            intro x hx
            rcases List.mem_or_eq_of_mem_set hx with hold | hnew
            · exact hall x hold
            · subst hnew
              have := hall r hmem
              dsimp only
              omega
        · rcases hI.htc with hnil | hneg | ⟨hb, hall⟩
          · rw [hnil]
            exact Or.inl rfl
          · exact Or.inr (Or.inl hneg)
          · refine Or.inr (Or.inr ⟨hb, ?_⟩)
            intro x hx
            rcases List.mem_or_eq_of_mem_set hx with hold | hnew
            · exact hall x hold
            · subst hnew
              have := hall r hmem
              dsimp only
              omega

theorem inv_register {T : Type} {vs : List T} {d : T} {s s' : BState T}
    (hI : Inv vs d s) (h : add_stream s = .ok s') : Inv vs d s' := by
  unfold add_stream at h
  split at h
  case isTrue => cases h
  case isFalse hne =>
    injection h with hs'
    subst hs'
    have hcomm := hI.hcomm
    have hclaim := hI.hclaim
    have hcap := hI.hcap
    refine ⟨hI.hlen, hI.hcap, hI.hclaim, hI.hcomm, ?_, ?_, hI.hwin, ?_, ?_⟩
    · intro x hx
      rcases List.mem_append.mp hx with hold | hnew
      · exact hI.hcur x hold
      · have hx0 := List.mem_singleton.mp hnew
        subst hx0
        dsimp only
        refine ⟨by omega, by omega, by omega, by omega⟩
    · intro x hx
      rcases List.mem_append.mp hx with hold | hnew
      · exact hI.hslice x hold
      · have hx0 := List.mem_singleton.mp hnew
        subst hx0
        simp
    · rcases hI.hsc with hnil | hneg | ⟨hb, hall⟩
      · exact absurd hnil (by simp [List.isEmpty_iff] at hne; exact hne)
      · exact Or.inr (Or.inl hneg)
      · refine Or.inr (Or.inr ⟨hb, ?_⟩)
        intro x hx
        rcases List.mem_append.mp hx with hold | hnew
        · exact hall x hold
        · have hx0 := List.mem_singleton.mp hnew
          subst hx0
          dsimp only
          omega
    · rcases hI.htc with hnil | hneg | ⟨hb, hall⟩
      · exact absurd hnil (by simp [List.isEmpty_iff] at hne; exact hne)
      · exact Or.inr (Or.inl hneg)
      · refine Or.inr (Or.inr ⟨hb, ?_⟩)
        intro x hx
        rcases List.mem_append.mp hx with hold | hnew
        · exact hall x hold
        · have hx0 := List.mem_singleton.mp hnew
          subst hx0
          dsimp only
          omega

theorem inv_drop {T : Type} {vs : List T} {d : T} {s s' : BState T} {i : Nat}
    (hI : Inv vs d s) (h : drop_receiver s i = .ok s') : Inv vs d s' := by
  unfold drop_receiver at h
  split at h
  case isTrue hlt =>
    injection h with hs'
    subst hs'
    have hsub : ∀ x ∈ s.receivers.eraseIdx i, x ∈ s.receivers := by
      intro x hx
      rw [List.mem_eraseIdx_iff_getElem] at hx
      rcases hx with ⟨k, hk, _, hkx⟩
      rw [← hkx]
      exact List.getElem_mem hk
    refine ⟨hI.hlen, hI.hcap, hI.hclaim, hI.hcomm, ?_, ?_, hI.hwin, ?_, ?_⟩
    · exact fun x hx => hI.hcur x (hsub x hx)
    · exact fun x hx => hI.hslice x (hsub x hx)
    · rcases hI.hsc with hnil | hneg | ⟨hb, hall⟩
      · rw [hnil]
        exact Or.inl (by simp)
      · exact Or.inr (Or.inl hneg)
      · exact Or.inr (Or.inr ⟨hb, fun x hx => hall x (hsub x hx)⟩)
    · rcases hI.htc with hnil | hneg | ⟨hb, hall⟩
      · rw [hnil]
        exact Or.inl (by simp)
      · exact Or.inr (Or.inl hneg)
      · exact Or.inr (Or.inr ⟨hb, fun x hx => hall x (hsub x hx)⟩)
  case isFalse => cases h

theorem inv_bstep {T : Type} {vs : List T} {d : T} {s s' : BState T} {a : BAct}
    (hI : Inv vs d s) (h : bstep vs d s a = .ok s') : Inv vs d s' := by
  cases a with
  | send => exact inv_send hI h
  | recv i => exact inv_recv hI h
  | register => exact inv_register hI h
  | dropRecv i => exact inv_drop hI h

theorem inv_run {T : Type} {vs : List T} {d : T} {s s' : BState T} {tr : List BAct}
    (hI : Inv vs d s) (h : run vs d s tr = some s') : Inv vs d s' := by
  induction tr generalizing s with
  | nil =>
    unfold run at h
    injection h with h0
    subst h0
    exact hI
  | cons a tr ih =>
    unfold run at h
    cases hst : bstep vs d s a with
    | ok s1 =>
      rw [hst] at h
      exact ih (inv_bstep hI hst) h
    | blocked => rw [hst] at h; cases h
    | panicked => rw [hst] at h; cases h

theorem map_range'_getD {T : Type} (vs : List T) (d : T) (n : Nat) (h : n ≤ vs.length) :
    (List.range' 0 n).map (fun j => vs.getD j d) = vs.take n := by
  apply List.ext_getElem
  · simp only [List.length_map, List.length_range', List.length_take]
    omega
  · intro k h1 h2
    simp only [List.length_map, List.length_range'] at h1
    rw [List.getElem_map, List.getElem_range', List.getElem_take]
    simp only [Nat.zero_add, Nat.one_mul]
    rw [List.getD_eq_getElem?_getD, List.getElem?_eq_getElem (by omega)]
    rfl

/-- C1: with a single producer sending the values of `vs` in order, in every
reachable state every receiver's sequence of received values is exactly the
messages with ids `start, start+1, …, cursor−1` in that order (`start` its
registration position); in particular a receiver registered at position 0
that has completed N `recv` calls received exactly `[v_0, …, v_{N−1}]`. -/
theorem c1_total_order_delivery {T : Type} (vs : List T) (d : T) (cap K : Nat)
    (hcap : 0 < cap) (tr : List BAct) (s : BState T)
    (hrun : run vs d (initChannel T cap K d) tr = some s) :
    (∀ r ∈ s.receivers,
      r.received = (List.range' r.start.toNat (r.cursor - r.start).toNat).map
        (fun j => vs.getD j d)) ∧
    (∀ r ∈ s.receivers, r.start = 0 → r.received.length ≤ vs.length →
      r.received = vs.take r.received.length) := by
  have hI := inv_run (inv_init vs d cap K hcap) hrun
  refine ⟨hI.hslice, ?_⟩
  intro r hr h0 hlenle
  have hs := hI.hslice r hr
  have hstart : r.start.toNat = 0 := by rw [h0]; rfl
  rw [hstart] at hs
  have hlen2 : r.received.length = (r.cursor - r.start).toNat := by
    rw [hs]
    simp
  rw [hlen2, hs]
  exact map_range'_getD vs d _ (by rw [← hlen2]; exact hlenle)

theorem c1_total_order_delivery_witness :
    ∃ s : BState Int,
      run [5, 7, 9] 0 (initChannel Int 2 2 0)
        [.send, .recv 0, .recv 1, .send, .recv 0, .recv 1, .send, .recv 0, .recv 1]
        = some s ∧
      (∀ r ∈ s.receivers, r.start = 0 → r.received.length ≤ ([5, 7, 9] : List Int).length →
        r.received = ([5, 7, 9] : List Int).take r.received.length) := by
  refine ⟨_, rfl, ?_⟩
  exact (c1_total_order_delivery [5, 7, 9] 0 2 2 (by decide)
    [.send, .recv 0, .recv 1, .send, .recv 0, .recv 1, .send, .recv 0, .recv 1] _ rfl).2

theorem add_stream_ok {T : Type} (s : BState T) (hne : s.receivers ≠ []) :
    add_stream s = .ok { s with
      receivers := s.receivers ++ [⟨max 0 s.committed, max 0 s.committed, []⟩] } := by
  unfold add_stream
  rw [if_neg (by simp [List.isEmpty_iff, hne])]

/-- The receiver record after one completed `try_read_next`. -/
def read_next {T : Type} (d : T) (s : BState T) (r : BRecv T) : BRecv T :=
  ⟨r.start, r.cursor + 1,
    r.received ++ [s.ring.getD ((r.cursor % (s.capacity : Int)).toNat) d]⟩

theorem recv_ok {T : Type} (d : T) (s : BState T) (i : Nat) (r : BRecv T)
    (hget : s.receivers[i]? = some r) (hle : ¬r.cursor > s.committed)
    (hc : ¬s.capacity = 0) :
    recv d s i = .ok { s with receivers := s.receivers.set i (read_next d s r) } := by
  unfold recv
  rw [hget]
  dsimp only
  rw [if_neg hle, if_neg hc]
  rfl

theorem recv_blocked {T : Type} (d : T) (s : BState T) (i : Nat) (r : BRecv T)
    (hget : s.receivers[i]? = some r) (hgt : r.cursor > s.committed) :
    recv d s i = .blocked := by
  unfold recv
  rw [hget]
  dsimp only
  rw [if_pos hgt]

/-- C5 counterexample: on a fresh channel, send one value (so `k = 1 > 0`
values were sent), register a second receiver, and complete that receiver's
first `recv` with no intervening send: the call does not block and returns
the value `10`, which was published before the registration. -/
theorem c5_late_joiner_counterexample :
    ∃ s : BState Int,
      run [10] 0 (initChannel Int 1 1 0) [.send, .register, .recv 1] = some s ∧
      (s.receivers.getD 1 ⟨0, 0, []⟩).received = [10] :=
  ⟨_, rfl, rfl⟩

/-- C5 amended: a receiver registered from a reachable state is placed at
cursor `max 0 committed`.  When at least one value has been published
(`committed ≥ 0`) its first `recv` completes immediately — without waiting for
a further send — and returns the value with id `committed`, the most recently
published value (which was published before the registration); only when
nothing has been published yet does the first `recv` block until a send. -/
theorem c5_late_joiner_amended {T : Type} (vs : List T) (d : T) (cap K : Nat)
    (hcap : 0 < cap) (tr : List BAct) (s : BState T)
    (hrun : run vs d (initChannel T cap K d) tr = some s)
    (hne : s.receivers ≠ []) :
    (0 ≤ s.committed →
      ∃ s1 s2 : BState T,
        add_stream s = .ok s1 ∧
        recv d s1 s.receivers.length = .ok s2 ∧
        ∃ r2 : BRecv T, s2.receivers[s.receivers.length]? = some r2 ∧
          r2.start = s.committed ∧ r2.cursor = s.committed + 1 ∧
          r2.received = [vs.getD s.committed.toNat d]) ∧
    (s.committed < 0 →
      ∃ s1 : BState T,
        add_stream s = .ok s1 ∧ recv d s1 s.receivers.length = .blocked) := by
  have hI := inv_run (inv_init vs d cap K hcap) hrun
  constructor
  · intro hc
    have hat : max 0 s.committed = s.committed := by omega
    have hstep1 := add_stream_ok s hne
    rw [hat] at hstep1
    set s1 : BState T :=
      { s with receivers := s.receivers ++ [⟨s.committed, s.committed, []⟩] } with hs1
    have hget : s1.receivers[s.receivers.length]? = some ⟨s.committed, s.committed, []⟩ := by
      simp [hs1]
    have hvalue : s1.ring.getD ((s.committed % (s1.capacity : Int)).toNat) d
        = vs.getD s.committed.toNat d := by
      show s.ring.getD ((s.committed % (s.capacity : Int)).toNat) d
        = vs.getD s.committed.toNat d
      rw [emod_toNat _ _ hc]
      exact hI.hwin s.committed.toNat (by omega) (by
        have := hI.hcap
        omega)
    have hstep2 := recv_ok d s1 s.receivers.length ⟨s.committed, s.committed, []⟩ hget
      (by show ¬s.committed > s.committed; omega)
      (by show ¬s.capacity = 0; have := hI.hcap; omega)
    have hlt : s.receivers.length < s1.receivers.length := by
      simp [hs1]
    refine ⟨s1, _, hstep1, hstep2,
      read_next d s1 ⟨s.committed, s.committed, []⟩, ?_, rfl, rfl, ?_⟩
    · simp only [List.getElem?_set, if_pos rfl, hlt, ite_true]
    · show [s1.ring.getD ((s.committed % (s1.capacity : Int)).toNat) d]
        = [vs.getD s.committed.toNat d]
      rw [hvalue]
  · intro hc
    have hat : max 0 s.committed = 0 := by omega
    have hstep1 := add_stream_ok s hne
    rw [hat] at hstep1
    set s1 : BState T := { s with receivers := s.receivers ++ [⟨0, 0, []⟩] } with hs1
    have hget : s1.receivers[s.receivers.length]? = some ⟨0, 0, []⟩ := by
      simp [hs1]
    exact ⟨s1, hstep1, recv_blocked d s1 s.receivers.length ⟨0, 0, []⟩ hget
      (by show (0 : Int) > s.committed; omega)⟩

theorem c5_late_joiner_amended_witness :
    ∃ s : BState Int, run [10] 0 (initChannel Int 1 1 0) [.send] = some s ∧
      0 ≤ s.committed ∧
      ∃ s1 s2 : BState Int,
        add_stream s = .ok s1 ∧
        recv 0 s1 s.receivers.length = .ok s2 ∧
        ∃ r2 : BRecv Int, s2.receivers[s.receivers.length]? = some r2 ∧
          r2.start = s.committed ∧ r2.cursor = s.committed + 1 ∧
          r2.received = [([10] : List Int).getD s.committed.toNat 0] := by
  refine ⟨_, rfl, by decide, ?_⟩
  exact (c5_late_joiner_amended [10] 0 1 1 (by decide) [.send] _ rfl (by decide)).1
    (by decide)

theorem add_mod_eq {c k cap : Nat} (h : c % cap + k < cap) :
    (c + k) % cap = c % cap + k := by
  conv_lhs => rw [← Nat.mod_add_div c cap]
  rw [Nat.add_right_comm, Nat.add_mul_mod_self_left]
  exact Nat.mod_eq_of_lt h

theorem add_mod_eq_sub {c k cap : Nat} (h1 : cap ≤ c % cap + k)
    (h2 : c % cap + k < 2 * cap) : (c + k) % cap = c % cap + k - cap := by
  conv_lhs => rw [← Nat.mod_add_div c cap]
  rw [Nat.add_right_comm, Nat.add_mul_mod_self_left]
  rw [Nat.mod_eq_sub_mod h1]
  exact Nat.mod_eq_of_lt (by omega)

/-- `batch_recv` returns exactly the window of unread values, in id order,
whether or not the copy wraps around the end of the ring. -/
theorem batch_recv_window {T : Type} {vs : List T} {d : T} {s : BState T}
    (hI : Inv vs d s) {i : Nat} {r : BRecv T}
    (hget : s.receivers[i]? = some r) (hle : r.cursor ≤ s.committed) :
    batch_recv s i []
      = some ((List.range' r.cursor.toNat (s.committed + 1 - r.cursor).toNat).map
          (fun j => vs.getD j d)) := by
  have hmem : r ∈ s.receivers := List.getElem?_mem hget
  have hcur := hI.hcur r hmem
  have hcap := hI.hcap
  have hlen := hI.hlen
  have hcnn : 0 ≤ r.cursor := le_trans hcur.1 hcur.2.1
  set c := r.cursor.toNat with hc
  set num := (s.committed + 1 - r.cursor).toNat with hnum
  have hcInt : (c : Int) = r.cursor := Int.toNat_of_nonneg hcnn
  have hnum1 : 1 ≤ num := by omega
  have hnumcap : num ≤ s.capacity := by omega
  have hwin' : ∀ k : Nat, k < num →
      s.ring.getD ((c + k) % s.capacity) d = vs.getD (c + k) d := by
    intro k hk
    exact hI.hwin (c + k) (by push_cast; omega) (by push_cast; omega)
  unfold batch_recv
  rw [hget]
  dsimp only
  rw [if_neg (by omega), emod_toNat _ _ hcnn]
  rw [← hc, ← hnum]
  have hf : c % s.capacity < s.capacity := Nat.mod_lt _ hcap
  split
  case isTrue hnw =>
    refine congrArg some ?_
    rw [List.nil_append]
    apply List.ext_getElem
    · simp only [List.length_take, List.length_drop, hlen, List.length_map,
        List.length_range']
      omega
    · intro k h1 h2
      simp only [List.length_take, List.length_drop, hlen] at h1
      rw [List.getElem_take, List.getElem_drop]
      rw [List.getElem_map, List.getElem_range']
      have hgd : s.ring[c % s.capacity + k] = s.ring.getD (c % s.capacity + k) d := by
        rw [List.getD_eq_getElem?_getD, List.getElem?_eq_getElem (by omega)]
        rfl
      rw [hgd, ← add_mod_eq (by omega)]
      simp only [Nat.one_mul]
      exact hwin' k (by omega)
  case isFalse hnw =>
    refine congrArg some ?_
    rw [List.nil_append]
    apply List.ext_getElem
    · simp only [List.length_append, List.length_take, List.length_drop, hlen,
        List.length_map, List.length_range']
      omega
    · intro k h1 h2
      simp only [List.length_append, List.length_take, List.length_drop, hlen] at h1
      rw [List.getElem_map, List.getElem_range']
      simp only [Nat.one_mul]
      rw [List.getElem_append]
      split
      case isTrue hk1 =>
        simp only [List.length_take, List.length_drop, hlen] at hk1
        rw [List.getElem_take, List.getElem_drop]
        have hgd : s.ring[c % s.capacity + k] = s.ring.getD (c % s.capacity + k) d := by
          rw [List.getD_eq_getElem?_getD, List.getElem?_eq_getElem (by omega)]
          rfl
        rw [hgd, ← add_mod_eq (by omega)]
        exact hwin' k (by omega)
      case isFalse hk1 =>
        simp only [List.length_take, List.length_drop, hlen] at hk1 ⊢
        rw [List.getElem_take]
        have hgd : ∀ (m : Nat) (hm : m < s.ring.length),
            s.ring[m] = s.ring.getD m d := by
          intro m hm
          rw [List.getD_eq_getElem?_getD, List.getElem?_eq_getElem hm]
          rfl
        rw [hgd _ (by omega)]
        have hmod : (c + k) % s.capacity = c % s.capacity + k - s.capacity :=
          add_mod_eq_sub (by omega) (by omega)
        have heq : k - (s.capacity - c % s.capacity) ⊓ (s.capacity - c % s.capacity)
            = c % s.capacity + k - s.capacity := by
          omega
        rw [heq, ← hmod]
        exact hwin' k (by omega)

theorem run_append {T : Type} (vs : List T) (d : T) (s : BState T) (t1 t2 : List BAct) :
    run vs d s (t1 ++ t2) = (run vs d s t1).bind (fun s1 => run vs d s1 t2) := by
  induction t1 generalizing s with
  | nil => rfl
  | cons a t1 ih =>
    simp only [List.cons_append, run]
    cases bstep vs d s a with
    | ok s1 => exact ih s1
    | blocked => rfl
    | panicked => rfl

theorem slowest_singleton_zero {T : Type} (cache tail : Int) (htail : tail < 0) :
    (slowest ([⟨0, 0, []⟩] : List (BRecv T)) cache tail).1 > tail := by
  unfold slowest
  by_cases h2 : cache > tail
  · rw [if_pos h2]
    exact h2
  · rw [if_neg h2]
    have hpx : List.find? (fun r => decide (r.cursor ≤ tail))
        ([⟨0, 0, []⟩] : List (BRecv T)) = none := by
      rw [List.find?_eq_none]
      intro x hx
      have hx0 := List.mem_singleton.mp hx
      subst hx0
      simp
      omega
    rw [hpx]
    show minCursor ([⟨0, 0, []⟩] : List (BRecv T)) > tail
    simp only [minCursor, List.foldr_cons, List.foldr_nil, isizeMax]
    omega

/-- As long as the single receiver still sits at position 0 and the buffer is
not yet full, a send completes whatever the cache contents are. -/
theorem send_ok_of {T : Type} (vs : List T) (d : T) (s : BState T)
    (hrecv : s.receivers = [⟨0, 0, []⟩])
    (htail : s.claimed - (s.capacity : Int) < 0)
    (hc0 : ¬s.capacity = 0) (hcomm : s.committed = s.claimed - 1) :
    ∃ s' : BState T, send vs d s = .ok s' ∧ s'.claimed = s.claimed + 1 ∧
      s'.committed = s.claimed ∧ s'.receivers = [⟨0, 0, []⟩] ∧
      s'.capacity = s.capacity ∧
      s'.ring = s.ring.set ((s.claimed % (s.capacity : Int)).toNat)
        (vs.getD s.claimed.toNat d) := by
  have hclaim : ∃ s1, claim s = some s1 := by
    unfold claim
    by_cases h1 : s.cached_slowest_reader ≠ -1 ∧
        s.cached_slowest_reader > s.claimed - (s.capacity : Int)
    · rw [if_pos h1]
      exact ⟨s, rfl⟩
    · rw [if_neg h1]
      have hsl : (slowest s.receivers s.slowest_cache
          (s.claimed - (s.capacity : Int))).1 > s.claimed - (s.capacity : Int) := by
        rw [hrecv]
        exact slowest_singleton_zero _ _ htail
      rw [if_pos hsl]
      exact ⟨_, rfl⟩
  obtain ⟨s1, hs1⟩ := hclaim
  obtain ⟨hcapEq, hringEq, hclaimEq, hcommEq, hrecvEq⟩ := claim_some hs1
  have hpub : publish s1.committed s.claimed = some s.claimed := by
    unfold publish
    rw [if_pos (by rw [hcommEq, hcomm])]
  refine ⟨{ s1 with
    ring := s1.ring.set ((s.claimed % (s1.capacity : Int)).toNat)
      (vs.getD s.claimed.toNat d),
    committed := s.claimed, claimed := s.claimed + 1 }, ?_, rfl, rfl, ?_, hcapEq, ?_⟩
  · unfold send
    rw [hs1]
    dsimp only
    rw [if_neg (by rw [hcapEq]; exact hc0), hpub]
  · show s1.receivers = [⟨0, 0, []⟩]
    rw [hrecvEq, hrecv]
  · show s1.ring.set ((s.claimed % (s1.capacity : Int)).toNat) (vs.getD s.claimed.toNat d)
      = s.ring.set ((s.claimed % (s.capacity : Int)).toNat) (vs.getD s.claimed.toNat d)
    rw [hringEq, hcapEq]

theorem run_sends {T : Type} (vs : List T) (d : T) (cap : Nat) (hcap : 0 < cap) :
    ∀ k : Nat, k ≤ cap →
    ∃ s : BState T, run vs d (initChannel T cap 1 d) (List.replicate k .send) = some s ∧
      s.claimed = (k : Int) ∧ s.committed = (k : Int) - 1 ∧
      s.receivers = [⟨0, 0, []⟩] ∧ s.capacity = cap := by
  intro k
  induction k with
  | zero =>
    intro _
    exact ⟨_, rfl, rfl, rfl, rfl, rfl⟩
  | succ k ih =>
    intro hk1
    obtain ⟨s, hrun, hclaimed, hcomm, hrecv, hcapEq⟩ := ih (by omega)
    obtain ⟨s', hsend, h1, h2, h3, h4, _⟩ := send_ok_of vs d s hrecv
      (by rw [hclaimed, hcapEq]; omega) (by omega)
      (by rw [hclaimed]; exact hcomm)
    refine ⟨s', ?_, by rw [h1, hclaimed]; push_cast; ring, by rw [h2, hclaimed]; push_cast; ring,
      h3, by rw [h4, hcapEq]⟩
    rw [List.replicate_succ', run_append, hrun]
    show run vs d s [.send] = some s'
    unfold run
    simp only [bstep]
    rw [hsend]
    rfl


/-- C9: (a) from any reachable state, `batch_recv` on a receiver with unread
data returns exactly the contiguous window of unread values
`v_cursor, …, v_committed` in sequence order (the proof covers both the
wrapping and the non-wrapping copy); (b) sending all of `vs` on a fresh
channel of capacity `vs.length` and then calling `batch_recv` into an empty
buffer returns exactly `vs`. -/
theorem c9_batch_recv_round_trip :
    (∀ (T : Type) (vs : List T) (d : T) (cap K : Nat), 0 < cap →
      ∀ (tr : List BAct) (s : BState T),
        run vs d (initChannel T cap K d) tr = some s →
        ∀ (i : Nat) (r : BRecv T), s.receivers[i]? = some r → r.cursor ≤ s.committed →
          batch_recv s i []
            = some ((List.range' r.cursor.toNat (s.committed + 1 - r.cursor).toNat).map
                (fun j => vs.getD j d))) ∧
    (∀ (T : Type) (vs : List T) (d : T), 0 < vs.length →
      ∃ s : BState T,
        run vs d (initChannel T vs.length 1 d) (List.replicate vs.length .send) = some s ∧
        batch_recv s 0 [] = some vs) := by
  constructor
  · intro T vs d cap K hcap tr s hrun i r hget hle
    exact batch_recv_window (inv_run (inv_init vs d cap K hcap) hrun) hget hle
  · intro T vs d hlen
    obtain ⟨s, hrun, hclaimed, hcomm, hrecv, hcapEq⟩ :=
      run_sends vs d vs.length hlen vs.length (le_refl _)
    have hI := inv_run (inv_init vs d vs.length 1 hlen) hrun
    have hget : s.receivers[0]? = some ⟨0, 0, []⟩ := by
      rw [hrecv]
      rfl
    have hle : (⟨0, 0, []⟩ : BRecv T).cursor ≤ s.committed := by
      show (0 : Int) ≤ s.committed
      rw [hcomm]
      omega
    have hw := batch_recv_window hI hget hle
    refine ⟨s, hrun, ?_⟩
    rw [hw, hcomm]
    rw [show (((vs.length : Int) - 1 + 1 - (⟨0, 0, []⟩ : BRecv T).cursor).toNat) = vs.length
      from by show (((vs.length : Int) - 1 + 1 - 0).toNat) = vs.length; omega]
    rw [show ((⟨0, 0, []⟩ : BRecv T).cursor.toNat) = 0 from rfl]
    rw [map_range'_getD vs d vs.length (le_refl _), List.take_length]

theorem c9_batch_recv_round_trip_witness :
    (∃ s : BState Int,
      run [3, 1, 4, 1] 0 (initChannel Int 4 1 0)
        [.send, .send, .send, .send, .recv 0, .recv 0, .send, .send] = some s ∧
      ∃ r : BRecv Int, s.receivers[0]? = some r ∧ r.cursor ≤ s.committed ∧
        batch_recv s 0 []
          = some ((List.range' r.cursor.toNat (s.committed + 1 - r.cursor).toNat).map
              (fun j => ([3, 1, 4, 1] : List Int).getD j 0))) ∧
    (∃ s : BState Int,
      run [3, 1, 4, 1] 0 (initChannel Int 4 1 0)
        (List.replicate 4 .send) = some s ∧
      batch_recv s 0 [] = some [3, 1, 4, 1]) := by
  constructor
  · refine ⟨_, rfl, _, rfl, by decide, ?_⟩
    exact c9_batch_recv_round_trip.1 Int [3, 1, 4, 1] 0 4 1 (by decide)
      [.send, .send, .send, .send, .recv 0, .recv 0, .send, .send] _ rfl 0 _ rfl (by decide)
  · exact c9_batch_recv_round_trip.2 Int [3, 1, 4, 1] 0 (by decide)

/-- C10 counterexample: `broadcast::channel(0)` succeeds and yields capacity
0, but the first `send` — with the channel's initial receiver live at
position 0 — never exits the claim wait loop (`slowest(0) = 0 ≤ tail = 0`),
so it blocks; it does not reach the slot-index computation and does not
panic. -/
theorem c10_zero_size_counterexample :
    (initChannel Int 0 1 0).capacity = 0 ∧
    bstep ([] : List Int) 0 (initChannel Int 0 1 0) .send = .blocked ∧
    bstep ([] : List Int) 0 (initChannel Int 0 1 0) .send ≠ .panicked := by
  exact ⟨rfl, by decide, by decide⟩

/-- C10 amended: construction with requested size 0 succeeds with capacity 0;
the first send then blocks forever in the claim loop while the initial
receiver is live; only once every receiver has been dropped does a send pass
the claim (the scan returns `isize::MAX`) and hit the remainder-by-zero panic
at the slot-index computation. -/
theorem c10_zero_size_amended :
    (initChannel Int 0 1 0).capacity = 0 ∧
    bstep ([] : List Int) 0 (initChannel Int 0 1 0) .send = .blocked ∧
    (∃ s1 : BState Int,
      run ([] : List Int) 0 (initChannel Int 0 1 0) [.dropRecv 0] = some s1 ∧
      bstep ([] : List Int) 0 s1 .send = .panicked) := by
  exact ⟨rfl, by decide, ⟨_, rfl, by decide⟩⟩

end Broadcast

theorem publish_some {a b c : Int} (h : publish a b = some c) : a = b - 1 ∧ c = b := by
  unfold publish at h
  split at h
  case isTrue hv =>
    injection h with h0
    exact ⟨hv, h0.symm⟩
  case isFalse => cases h

theorem run_publish_spec (v : Int) (ids : List Int) (p : Int) :
    run_publish v ids = some p →
      p = v + ids.length ∧ ∀ k : Nat, k < ids.length → ids.getD k 0 = v + 1 + k := by
  induction ids generalizing v with
  | nil =>
    intro h
    injection h with h0
    subst h0
    refine ⟨by simp, ?_⟩
    intro k hk
    cases hk
  | cons x rest ih =>
    intro h
    unfold run_publish at h
    cases hp : publish v x with
    | none => rw [hp] at h; cases h
    | some q =>
      rw [hp] at h
      obtain ⟨hv, hq⟩ := publish_some hp
      rw [hq] at h
      obtain ⟨hp1, hp2⟩ := ih x h
      constructor
      · simp only [List.length_cons]
        push_cast
        omega
      · intro k hk
        cases k with
        | zero =>
          show x = v + 1 + ((0 : Nat) : Int)
          omega
        | succ k =>
          show rest.getD k 0 = v + 1 + ((k + 1 : Nat) : Int)
          have hh := hp2 k (by simpa using hk)
          push_cast at hh ⊢
          omega

/-- C2: the `publish` compare-exchange completes only from watermark
`seq − 1` and moves it to `seq`; consequently, starting from the initial
watermark −1, any sequence of completed publishes is exactly `0, 1, 2, …`:
the k-th id to become visible is k, so id N becomes visible only after every
id < N. -/
theorem c2_sequential_publish :
    (∀ published id p : Int, publish published id = some p →
      published = id - 1 ∧ p = id) ∧
    (∀ (ids : List Int) (p : Int), run_publish (-1) ids = some p →
      p = (ids.length : Int) - 1 ∧
      ∀ k : Nat, k < ids.length → ids.getD k 0 = (k : Int)) := by
  constructor
  · intro pb id p h
    exact publish_some h
  · intro ids p h
    obtain ⟨h1, h2⟩ := run_publish_spec (-1) ids p h
    refine ⟨by omega, ?_⟩
    intro k hk
    have := h2 k hk
    omega

namespace Tracker

/-- State of `BroadcastTracker` (src/channel/tracker/broadcast_tracker.rs)
together with the ghost list `recvs` of the live receivers' cursors
(`num_receivers = recvs.length`). -/
structure TSys where
  counters : List Nat
  tail : Nat
  recvs : List Nat
  deriving DecidableEq, Repr

/-- `BroadcastTracker::new(size)`: `size += 1`, then `size` zeroed counters. -/
def tnew (size : Nat) : TSys :=
  ⟨List.replicate (size + 1) 0, 0, []⟩

/-- `fetch_add(1)` on counter `i`. -/
def incr (l : List Nat) (i : Nat) : List Nat := l.set i (l.getD i 0 + 1)

/-- `fetch_sub(1)` on counter `i`. -/
def decr (l : List Nat) (i : Nat) : List Nat := l.set i (l.getD i 0 - 1)

/-- `BroadcastTracker::new_receiver`: bump the live count, read the tail and
increment the counter at `tail % len`; the new receiver's cursor is the tail. -/
def new_receiver (s : TSys) : TSys :=
  { s with
    counters := incr s.counters (s.tail % s.counters.length)
    recvs := s.recvs ++ [s.tail] }

/-- `BroadcastTracker::move_receiver(from, to)`: no-op when `to == from`;
otherwise `fetch_add` the destination cell, `fetch_sub` the source cell
(`previous` is the value the `fetch_sub` returns), and when `previous == 1`
and the tail equals `from`, compare-and-swap the tail to `to`. -/
def move_receiver (s : TSys) (fr toPos : Nat) : TSys :=
  if toPos = fr then s
  else
    { s with
      counters := decr (incr s.counters (toPos % s.counters.length))
        (fr % s.counters.length)
      tail :=
        if (incr s.counters (toPos % s.counters.length)).getD
              (fr % s.counters.length) 0 = 1 ∧ s.tail = fr
        then toPos else s.tail }

/-- `BroadcastTracker::remove_receiver(at)`: decrement the counter at
`at % len` and the live count.  The `previous == 1 && at == tail && num_left
> 0` test is present in the source, but the `chase_tail(at)` call under it is
commented out, so the tail is never moved here. -/
def remove_receiver (s : TSys) (atPos : Nat) : TSys :=
  { s with counters := decr s.counters (atPos % s.counters.length) }

/-- `BroadcastTracker::chase_tail` (defined in the source; its only call site
is the commented-out line in `remove_receiver`): walk forward from `from`
until a cell with a nonzero counter is found, then store its id as the tail.
The unbounded loop is given explicit fuel. -/
def chase_tail (s : TSys) : Nat → Nat → TSys
  | 0, _ => s
  | f + 1, id =>
    if 0 < s.counters.getD (id % s.counters.length) 0 then { s with tail := id }
    else chase_tail s f (id + 1)

/-- Receiver-tracker operations: registration, an arbitrary forward advance
`adv i to` of receiver `i` to position `to`, the unit advance `advOne i`
(`move_receiver(c, c+1)`, the shape `recv` produces), and deregistration. -/
inductive TAct where
  | reg
  | adv (i : Nat) (toPos : Nat)
  | advOne (i : Nat)
  | dereg (i : Nat)
  deriving DecidableEq, Repr

def tstep (s : TSys) : TAct → Option TSys
  | .reg => some (new_receiver s)
  | .adv i toPos =>
    match s.recvs[i]? with
    | some c => if c < toPos then some { move_receiver s c toPos with recvs := s.recvs.set i toPos }
                else none
    | none => none
  | .advOne i =>
    match s.recvs[i]? with
    | some c => some { move_receiver s c (c + 1) with recvs := s.recvs.set i (c + 1) }
    | none => none
  | .dereg i =>
    match s.recvs[i]? with
    | some c => some { remove_receiver s c with recvs := s.recvs.eraseIdx i }
    | none => none

def runT (s : TSys) : List TAct → Option TSys
  | [] => some s
  | a :: tr =>
    match tstep s a with
    | some s' => runT s' tr
    | none => none

/-- C3 counterexample: two receivers register (both at tail 0); the first
advances to 1, then the second advances from 0 to 2 in one `move_receiver`
call.  Its `fetch_sub` empties slot 0 while the tail is 0, so the CAS moves
the tail to 2 — but the first receiver's cursor is still 1, which is below
the new tail. -/
theorem c3_tail_lower_bound_counterexample :
    ∃ s : TSys, runT (tnew 4) [.reg, .reg, .adv 0 1, .adv 1 2] = some s ∧
      (1 : Nat) ∈ s.recvs ∧ s.tail = 2 ∧ ¬(s.tail ≤ 1) := by
  exact ⟨_, rfl, by decide, rfl, by decide⟩

/-- C6: after registering receivers A and B at tail 0 and advancing B to 2
by unit steps, deregistering A empties the counter at the tail (slot 0) with
a live receiver remaining at 2 — but `remove_receiver` leaves the tail at 0
because the `chase_tail` call is commented out; the `chase_tail` scan itself
(as written in the source) would have advanced the tail to 2. -/
theorem c6_deregister_tail_chase_disabled :
    ∃ s : TSys, runT (tnew 4) [.reg, .reg, .advOne 1, .advOne 1, .dereg 0] = some s ∧
      s.recvs = [2] ∧ s.counters.getD 0 0 = 0 ∧ s.tail = 0 ∧
      (chase_tail s 5 0).tail = 2 := by
  exact ⟨_, rfl, rfl, rfl, rfl, by decide⟩

theorem countP_set {α : Type} (p : α → Bool) (l : List α) (i : Nat) (a b : α)
    (h : l[i]? = some a) :
    (l.set i b).countP p + (if p a then 1 else 0)
      = l.countP p + (if p b then 1 else 0) := by
  induction l generalizing i with
  | nil => simp at h
  | cons x xs ih =>
    cases i with
    | zero =>
      simp only [List.getElem?_cons_zero, Option.some_inj] at h
      subst h
      simp only [List.set_cons_zero, List.countP_cons]
      cases hpx : p x <;> cases hpb : p b <;> simp
    | succ i =>
      simp only [List.getElem?_cons_succ] at h
      simp only [List.set_cons_succ, List.countP_cons]
      have hih := ih i h
      cases hpa : p a <;> cases hpb : p b <;> cases hpx : p x <;>
        simp [hpa, hpb, hpx] at hih ⊢ <;> omega

theorem countP_eraseIdx {α : Type} (p : α → Bool) (l : List α) (i : Nat) (a : α)
    (h : l[i]? = some a) :
    (l.eraseIdx i).countP p + (if p a then 1 else 0) = l.countP p := by
  induction l generalizing i with
  | nil => simp at h
  | cons x xs ih =>
    cases i with
    | zero =>
      simp only [List.getElem?_cons_zero, Option.some_inj] at h
      subst h
      simp only [List.eraseIdx_cons_zero, List.countP_cons]
    | succ i =>
      simp only [List.getElem?_cons_succ] at h
      simp only [List.eraseIdx_cons_succ, List.countP_cons]
      have hih := ih i h
      omega

theorem two_le_countP_aux {α : Type} (p : α → Bool) (l : List α) {i j : Nat}
    (hi : i < l.length) (hj : j < l.length) (hij : i < j)
    (hpi : p l[i] = true) (hpj : p l[j] = true) : 2 ≤ l.countP p := by
  rw [← List.take_append_drop j l, List.countP_append]
  have h1 : 0 < (l.take j).countP p := by
    rw [List.countP_pos_iff]
    refine ⟨l[i], ?_, hpi⟩
    have hlt : i < (l.take j).length := by
      simp only [List.length_take]
      omega
    have hgt : (l.take j)[i] = l[i] := List.getElem_take l
    rw [← hgt]
    exact List.getElem_mem hlt
  have h2 : 0 < (l.drop j).countP p := by
    rw [List.countP_pos_iff]
    refine ⟨l[j], ?_, hpj⟩
    have hlt : 0 < (l.drop j).length := by
      simp only [List.length_drop]
      omega
    have hgt : (l.drop j)[0] = l[j] := by
      simp [List.getElem_drop]
    rw [← hgt]
    exact List.getElem_mem hlt
  omega

theorem two_le_countP {α : Type} (p : α → Bool) (l : List α) {i j : Nat}
    (hi : i < l.length) (hj : j < l.length) (hij : i ≠ j)
    (hpi : p l[i] = true) (hpj : p l[j] = true) :
    2 ≤ l.countP p := by
  rcases Nat.lt_or_ge i j with h | h
  · exact two_le_countP_aux p l hi hj h hpi hpj
  · exact two_le_countP_aux p l hj hi (by omega) hpj hpi

/-- The tracker invariant: each counter is exactly the number of live
receivers whose cursor reduces to that slot, and the tail is a lower bound
on every live cursor. -/
structure TInv (s : TSys) : Prop where
  hlen : 0 < s.counters.length
  hcount : ∀ j : Nat, j < s.counters.length →
    s.counters.getD j 0 = s.recvs.countP (fun c => c % s.counters.length == j)
  htail : ∀ c ∈ s.recvs, s.tail ≤ c

theorem tinv_tnew (size : Nat) : TInv (tnew size) := by
  refine ⟨by simp [tnew], ?_, ?_⟩
  · intro j hj
    simp only [tnew] at hj ⊢
    rw [List.getD_eq_getElem?_getD, List.getElem?_replicate]
    simp only [List.length_replicate] at hj
    simp [hj]
  · intro c hc
    simp [tnew] at hc

/-- An action that is not a multi-step `adv`. -/
def isAdv : TAct → Bool
  | .adv _ _ => true
  | _ => false

theorem tinv_reg {s : TSys} (hI : TInv s) : TInv (new_receiver s) := by
  obtain ⟨hlen, hcount, htail⟩ := hI
  have hmod : s.tail % s.counters.length < s.counters.length := Nat.mod_lt _ hlen
  have hL : (incr s.counters (s.tail % s.counters.length)).length
      = s.counters.length := by
    simp [incr]
  refine ⟨by simpa [new_receiver, incr] using hlen, ?_, ?_⟩
  · intro j hj
    show (incr s.counters (s.tail % s.counters.length)).getD j 0 = _
    simp only [new_receiver] at hj ⊢
    rw [hL] at hj
    simp only [hL]
    rw [List.countP_append]
    by_cases hjt : s.tail % s.counters.length = j
    · unfold incr
      rw [← hjt, getD_set_self _ _ _ hmod, hcount _ hmod]
      simp
    · unfold incr
      rw [getD_set_ne _ _ _ hjt, hcount _ hj]
      have hz : (List.countP (fun c => c % s.counters.length == j) [s.tail]) = 0 := by
        simp [hjt]
      omega
  · intro c hc
    simp only [new_receiver] at hc
    rcases List.mem_append.mp hc with h | h
    · exact htail c h
    · have := List.mem_singleton.mp h
      subst this
      exact le_refl _

theorem tinv_advOne {s : TSys} (hI : TInv s) {i : Nat} {c : Nat}
    (hci : s.recvs[i]? = some c) :
    TInv { move_receiver s c (c + 1) with recvs := s.recvs.set i (c + 1) } := by
  obtain ⟨hlen, hcount, htail⟩ := hI
  obtain ⟨hi, hgi⟩ := List.getElem?_eq_some.mp hci
  have hmem : c ∈ s.recvs := List.getElem?_mem hci
  have hsne : ¬(c + 1 = c) := by omega
  have hmv : move_receiver s c (c + 1) = { s with
      counters := decr (incr s.counters ((c + 1) % s.counters.length))
        (c % s.counters.length)
      tail :=
        if (incr s.counters ((c + 1) % s.counters.length)).getD
              (c % s.counters.length) 0 = 1 ∧ s.tail = c
        then c + 1 else s.tail } := by
    unfold move_receiver
    rw [if_neg hsne]
  rw [hmv]
  have hf : c % s.counters.length < s.counters.length := Nat.mod_lt _ hlen
  have ht : (c + 1) % s.counters.length < s.counters.length := Nat.mod_lt _ hlen
  have hlen1 : (incr s.counters ((c + 1) % s.counters.length)).length
      = s.counters.length := by
    simp [incr]
  have hL : (decr (incr s.counters ((c + 1) % s.counters.length))
      (c % s.counters.length)).length = s.counters.length := by
    simp [decr, incr]
  have hcm : 0 < s.recvs.countP
      (fun x => x % s.counters.length == c % s.counters.length) := by
    rw [List.countP_pos_iff]
    exact ⟨c, hmem, by simp⟩
  have hprev : (incr s.counters ((c + 1) % s.counters.length)).getD
        (c % s.counters.length) 0
      = s.counters.getD (c % s.counters.length) 0
        + (if (c + 1) % s.counters.length = c % s.counters.length then 1 else 0) := by
    by_cases h : (c + 1) % s.counters.length = c % s.counters.length
    · rw [if_pos h]
      unfold incr
      rw [h, getD_set_self _ _ _ hf]
    · rw [if_neg h]
      exact getD_set_ne _ _ _ h
  refine ⟨?_, ?_, ?_⟩
  · show 0 < (decr (incr s.counters ((c + 1) % s.counters.length))
      (c % s.counters.length)).length
    rw [hL]
    exact hlen
  · intro j hj
    rw [hL] at hj
    show (decr (incr s.counters ((c + 1) % s.counters.length))
        (c % s.counters.length)).getD j 0 = _
    simp only [hL]
    have hset := countP_set (fun x => x % s.counters.length == j) s.recvs i c (c + 1) hci
    have hcj := hcount j hj
    have hcf := hcount _ hf
    unfold decr
    by_cases hjf : c % s.counters.length = j
    · subst hjf
      rw [getD_set_self _ _ _ (by rw [hlen1]; exact hf), hprev]
      by_cases hjt : (c + 1) % s.counters.length = c % s.counters.length
      · rw [if_pos hjt]
        have hite1 : ((fun x => x % s.counters.length == c % s.counters.length) c)
            = true := by
          simp
        have hite2 : ((fun x => x % s.counters.length == c % s.counters.length) (c + 1))
            = true := by
          simp [hjt]
        rw [hite1, hite2] at hset
        simp at hset
        omega
      · rw [if_neg hjt]
        have hite1 : ((fun x => x % s.counters.length == c % s.counters.length) c)
            = true := by
          simp
        have hite2 : ((fun x => x % s.counters.length == c % s.counters.length) (c + 1))
            = false := by
          simp only [beq_eq_false_iff_ne, ne_eq]
          exact hjt
        rw [hite1, hite2] at hset
        simp at hset
        omega
    · rw [getD_set_ne _ _ _ hjf]
      have hite1 : ((fun x => x % s.counters.length == j) c) = false := by
        simp only [beq_eq_false_iff_ne, ne_eq]
        exact hjf
      rw [hite1] at hset
      unfold incr
      by_cases hjt : (c + 1) % s.counters.length = j
      · subst hjt
        rw [getD_set_self _ _ _ ht]
        have hite2 : ((fun x => x % s.counters.length == (c + 1) % s.counters.length)
            (c + 1)) = true := by
          simp
        rw [hite2] at hset
        simp at hset
        omega
      · rw [getD_set_ne _ _ _ hjt]
        have hite2 : ((fun x => x % s.counters.length == j) (c + 1)) = false := by
          simp only [beq_eq_false_iff_ne, ne_eq]
          exact hjt
        rw [hite2] at hset
        simp at hset
        omega
  · intro x hx
    show (if (incr s.counters ((c + 1) % s.counters.length)).getD
          (c % s.counters.length) 0 = 1 ∧ s.tail = c
        then c + 1 else s.tail) ≤ x
    simp only at hx
    rw [List.mem_iff_getElem] at hx
    obtain ⟨j, hjlen, hxj⟩ := hx
    rw [List.length_set] at hjlen
    rw [List.getElem_set] at hxj
    by_cases hcas : (incr s.counters ((c + 1) % s.counters.length)).getD
        (c % s.counters.length) 0 = 1 ∧ s.tail = c
    · rw [if_pos hcas]
      by_cases hij : i = j
      · rw [if_pos hij] at hxj
        omega
      · rw [if_neg hij] at hxj
        have hxmem : x ∈ s.recvs := by
          rw [← hxj]
          exact List.getElem_mem hjlen
        have hxc : x ≠ c := by
          intro hxc
          have h2 : 2 ≤ s.recvs.countP
              (fun y => y % s.counters.length == c % s.counters.length) := by
            refine two_le_countP _ _ hi hjlen hij ?_ ?_
            · rw [hgi]
              simp
            · rw [hxj, hxc]
              simp
          rw [hprev] at hcas
          have hcf := hcount _ hf
          by_cases hjt : (c + 1) % s.counters.length = c % s.counters.length
          · rw [if_pos hjt] at hcas
            omega
          · rw [if_neg hjt] at hcas
            omega
        have := htail x hxmem
        have htc := hcas.2
        omega
    · rw [if_neg hcas]
      by_cases hij : i = j
      · rw [if_pos hij] at hxj
        have := htail c hmem
        omega
      · rw [if_neg hij] at hxj
        refine htail x ?_
        rw [← hxj]
        exact List.getElem_mem hjlen

theorem tinv_dereg {s : TSys} (hI : TInv s) {i : Nat} {c : Nat}
    (hci : s.recvs[i]? = some c) :
    TInv { remove_receiver s c with recvs := s.recvs.eraseIdx i } := by
  obtain ⟨hlen, hcount, htail⟩ := hI
  show TInv {
    counters := decr s.counters (c % s.counters.length)
    tail := s.tail
    recvs := s.recvs.eraseIdx i }
  have hf : c % s.counters.length < s.counters.length := Nat.mod_lt _ hlen
  have hmem : c ∈ s.recvs := List.getElem?_mem hci
  have hL : (decr s.counters (c % s.counters.length)).length = s.counters.length := by
    simp [decr]
  refine ⟨?_, ?_, ?_⟩
  · show 0 < (decr s.counters (c % s.counters.length)).length
    rw [hL]
    exact hlen
  · intro j hj
    rw [hL] at hj
    show (decr s.counters (c % s.counters.length)).getD j 0 = _
    simp only [hL]
    have hset := countP_eraseIdx (fun x => x % s.counters.length == j) s.recvs i c hci
    have hcj := hcount j hj
    unfold decr
    by_cases hjf : c % s.counters.length = j
    · subst hjf
      rw [getD_set_self _ _ _ hf]
      have hite1 : ((fun x => x % s.counters.length == c % s.counters.length) c)
          = true := by
        simp
      rw [hite1] at hset
      simp at hset
      omega
    · rw [getD_set_ne _ _ _ hjf]
      have hite1 : ((fun x => x % s.counters.length == j) c) = false := by
        simp only [beq_eq_false_iff_ne, ne_eq]
        exact hjf
      rw [hite1] at hset
      simp at hset
      omega
  · intro x hx
    simp only at hx
    have hxmem : x ∈ s.recvs := by
      rw [List.mem_eraseIdx_iff_getElem] at hx
      obtain ⟨k, hk, _, hkx⟩ := hx
      rw [← hkx]
      exact List.getElem_mem hk
    exact htail x hxmem

theorem tinv_step {s s' : TSys} {a : TAct} (hI : TInv s) (ha : isAdv a = false)
    (h : tstep s a = some s') : TInv s' := by
  cases a with
  | reg =>
    injection h with h0
    subst h0
    exact tinv_reg hI
  | adv i toPos => cases ha
  | advOne i =>
    simp only [tstep] at h
    cases hci : s.recvs[i]? with
    | none => rw [hci] at h; cases h
    | some c =>
      rw [hci] at h
      injection h with h0
      subst h0
      exact tinv_advOne hI hci
  | dereg i =>
    simp only [tstep] at h
    cases hci : s.recvs[i]? with
    | none => rw [hci] at h; cases h
    | some c =>
      rw [hci] at h
      injection h with h0
      subst h0
      exact tinv_dereg hI hci

theorem tinv_runT {s s' : TSys} {tr : List TAct} (hI : TInv s)
    (hunit : ∀ a ∈ tr, isAdv a = false) (h : runT s tr = some s') : TInv s' := by
  induction tr generalizing s with
  | nil =>
    injection h with h0
    subst h0
    exact hI
  | cons a tr ih =>
    unfold runT at h
    cases hst : tstep s a with
    | none => rw [hst] at h; cases h
    | some s1 =>
      rw [hst] at h
      exact ih (tinv_step hI (hunit a (List.mem_cons_self _ _)) hst)
        (fun b hb => hunit b (List.mem_cons_of_mem _ hb)) h

/-- C3 amended: over every sequence of registrations, single-step advances
(`move_receiver(c, c+1)`, the shape produced by `recv`) and deregistrations,
each live receiver's slot counter stays at least 1 and the tail stays a
lower bound on every live cursor.  (The counter-array length is `size + 1`
as allocated by `BroadcastTracker::new`.)  With a multi-step advance the
tail bound fails — see the counterexample. -/
theorem c3_refcount_tail_invariant_amended (size : Nat) (tr : List TAct) (s : TSys)
    (hunit : ∀ a ∈ tr, isAdv a = false) (hrun : runT (tnew size) tr = some s) :
    (∀ c ∈ s.recvs, 1 ≤ s.counters.getD (c % s.counters.length) 0) ∧
    (∀ c ∈ s.recvs, s.tail ≤ c) := by
  have hI := tinv_runT (tinv_tnew size) hunit hrun
  refine ⟨?_, hI.htail⟩
  intro c hc
  have hf : c % s.counters.length < s.counters.length := Nat.mod_lt _ hI.hlen
  rw [hI.hcount _ hf]
  exact List.countP_pos_iff.mpr ⟨c, hc, by simp⟩

theorem c3_refcount_tail_invariant_amended_witness :
    ∃ s : TSys, runT (tnew 4) [.reg, .advOne 0, .reg, .advOne 0, .dereg 1] = some s ∧
      (∀ c ∈ s.recvs, 1 ≤ s.counters.getD (c % s.counters.length) 0) ∧
      (∀ c ∈ s.recvs, s.tail ≤ c) := by
  refine ⟨_, rfl, ?_⟩
  exact c3_refcount_tail_invariant_amended 4
    [.reg, .advOne 0, .reg, .advOne 0, .dereg 1] _ (by decide) rfl

end Tracker

/-- `Drop for Ring` (src/channel/mod.rs): read `current =
sender_tracker.current()` (the final published watermark); when `current < 0`
the vec length is set to 0, when `current < capacity` it is set to `current`,
otherwise it stays `capacity`; dropping the `Vec` then runs the destructor of
exactly the first `len` slots.  This function returns that count. -/
def ring_drop_count (current : Int) (capacity : Nat) : Nat :=
  if current < 0 then 0
  else if current.toNat < capacity then current.toNat
  else capacity

/-- Number of slots holding a written value when the final published
watermark is `current`: the ids `0..=current` occupy `current + 1` distinct
slots until the ring is full. -/
def written_slot_count (current : Int) (capacity : Nat) : Nat :=
  min (current + 1).toNat capacity

/-- `Drop for Core` (src/broadcast/mod.rs): `drop(Box::from_raw(self.ring))`
drops the full vec of length `capacity`, whatever was published. -/
def core_drop_count (capacity : Nat) : Nat := capacity

/-- C4, code bug: with capacity 8 and final published watermark 2, slots
0, 1, 2 hold written values, but `Ring::drop` calls `set_len(2)` and so drops
only slots 0 and 1 — the written slot 2 is leaked, violating "every written
slot is dropped exactly once" (off by one: `set_len(current)` instead of
`set_len(current + 1)`).  The broadcast `Core::drop` drops all 8 slots even
when nothing was published (watermark −1, no slot written), violating "no
unpublished slot's destructor ever runs". -/
theorem c4_drop_written_slots_bug :
    ring_drop_count 2 8 = 2 ∧ written_slot_count 2 8 = 3 ∧
    ring_drop_count 2 8 ≠ written_slot_count 2 8 ∧
    core_drop_count 8 = 8 ∧ written_slot_count (-1) 8 = 0 ∧
    core_drop_count 8 ≠ written_slot_count (-1) 8 := by
  decide

/-- Fuel-based doubling loop computing the next power of two at or above
`s`, starting from `p`. -/
def np2go (s : Nat) : Nat → Nat → Nat
  | 0, p => p
  | f + 1, p => if s ≤ p then p else np2go s f (2 * p)

/-- `usize::next_power_of_two` on a 64-bit target. -/
def next_power_of_two (s : Nat) : Nat := np2go s 64 1

/-- `usize::checked_next_power_of_two` on a 64-bit target: `None` exactly
when the next power of two does not fit in a `usize`, i.e. when `s > 2^63`. -/
def checked_next_power_of_two (s : Nat) : Option Nat :=
  if s ≤ 2 ^ 63 then some (next_power_of_two s) else none

def isizeMaxNat : Nat := 2 ^ 63 - 1

inductive ChannelError where
  | InvalidSize
  | SetupFailed
  | BufferTooBig
  deriving DecidableEq, Repr

/-- Modelled from the spec: `MultiCursorTracker::new` is not under src (only
its caller `Ring::new` is); per the spec, tracker construction fails with
InvalidSize exactly when the requested size is zero. -/
def multi_cursor_tracker_new (size : Nat) : Except ChannelError Unit :=
  if size = 0 then .error .InvalidSize else .ok ()

/-- `Ring::new` (src/channel/mod.rs): round the requested size up with
`checked_next_power_of_two` (`None` → BufferTooBig), reject a rounded size
above `isize::MAX` (BufferTooBig), then build the tracker.  Returns the
resulting capacity. -/
def ring_new (buffer_size : Nat) : Except ChannelError Nat :=
  match checked_next_power_of_two buffer_size with
  | none => .error .BufferTooBig
  | some bs =>
    if bs > isizeMaxNat then .error .BufferTooBig
    else
      match multi_cursor_tracker_new bs with
      | .error e => .error e
      | .ok _ => .ok bs

/-- C7 counterexample: requested size 0 is not rejected —
`checked_next_power_of_two(0)` is `Some(1)`, so construction succeeds with
capacity 1 and `InvalidSize` is never produced. -/
theorem c7_zero_size_counterexample :
    ring_new 0 = .ok 1 ∧ ring_new 0 ≠ .error .InvalidSize := by
  constructor
  · rfl
  · intro h
    rw [show ring_new 0 = Except.ok 1 from rfl] at h
    exact Except.noConfusion h

theorem np2go_pow (s : Nat) : ∀ f i : Nat, ∃ k : Nat, np2go s f (2 ^ i) = 2 ^ k := by
  intro f
  induction f with
  | zero => exact fun i => ⟨i, rfl⟩
  | succ f ih =>
    intro i
    unfold np2go
    by_cases h : s ≤ 2 ^ i
    · rw [if_pos h]
      exact ⟨i, rfl⟩
    · rw [if_neg h, show 2 * 2 ^ i = 2 ^ (i + 1) from by ring]
      exact ih (i + 1)

theorem np2go_ge (s : Nat) : ∀ f p : Nat, s ≤ p * 2 ^ f → s ≤ np2go s f p := by
  intro f
  induction f with
  | zero =>
    intro p h
    simpa using h
  | succ f ih =>
    intro p h
    unfold np2go
    by_cases hsp : s ≤ p
    · rw [if_pos hsp]
      exact hsp
    · rw [if_neg hsp]
      apply ih
      calc s ≤ p * 2 ^ (f + 1) := h
        _ = 2 * p * 2 ^ f := by ring

theorem np2go_min (s : Nat) : ∀ f i : Nat, (∀ m : Nat, m < i → ¬s ≤ 2 ^ m) →
    ∀ j : Nat, s ≤ 2 ^ j → np2go s f (2 ^ i) ≤ 2 ^ j := by
  intro f
  induction f with
  | zero =>
    intro i hmin j hj
    show 2 ^ i ≤ 2 ^ j
    have hij : i ≤ j := by
      by_contra hcon
      exact hmin j (by omega) hj
    exact Nat.pow_le_pow_right (by omega) hij
  | succ f ih =>
    intro i hmin j hj
    unfold np2go
    by_cases hsp : s ≤ 2 ^ i
    · rw [if_pos hsp]
      have hij : i ≤ j := by
        by_contra hcon
        exact hmin j (by omega) hj
      exact Nat.pow_le_pow_right (by omega) hij
    · rw [if_neg hsp, show 2 * 2 ^ i = 2 ^ (i + 1) from by ring]
      refine ih (i + 1) ?_ j hj
      intro m hm
      rcases Nat.lt_or_ge m i with h | h
      · exact hmin m h
      · have : m = i := by omega
        subst this
        exact hsp

theorem next_power_of_two_spec (s : Nat) (hs : s ≤ 2 ^ 64) :
    ∃ k : Nat, next_power_of_two s = 2 ^ k ∧ s ≤ 2 ^ k ∧
      ∀ j : Nat, s ≤ 2 ^ j → 2 ^ k ≤ 2 ^ j := by
  obtain ⟨k, hk⟩ := np2go_pow s 64 0
  have hge : s ≤ np2go s 64 (2 ^ 0) := np2go_ge s 64 (2 ^ 0) (by simpa using hs)
  have hmin := np2go_min s 64 0 (by omega)
  refine ⟨k, hk, ?_, ?_⟩
  · rw [← hk]
    exact hge
  · intro j hj
    rw [← hk]
    exact hmin j hj

/-- C7 amended: construction never fails for size 0 — the rounding happens
before any validation, `next_power_of_two 0 = 1`, and `InvalidSize` is never
returned.  Successful construction yields the least power of two at or above
the request; the only error is BufferTooBig, exactly when the rounded size
exceeds `isize::MAX`, i.e. when the request exceeds `2^62`. -/
theorem c7_construction_amended (s : Nat) :
    (s ≤ 2 ^ 62 → ∃ k : Nat, ring_new s = .ok (2 ^ k) ∧ s ≤ 2 ^ k ∧
      ∀ j : Nat, s ≤ 2 ^ j → 2 ^ k ≤ 2 ^ j) ∧
    (2 ^ 62 < s → ring_new s = .error .BufferTooBig) ∧
    ring_new s ≠ .error .InvalidSize := by
  have h62 : (2 : Nat) ^ 62 ≤ 2 ^ 64 := Nat.pow_le_pow_right (by omega) (by omega)
  have h63 : (2 : Nat) ^ 63 ≤ 2 ^ 64 := Nat.pow_le_pow_right (by omega) (by omega)
  have h6263 : (2 : Nat) ^ 62 < 2 ^ 63 := Nat.pow_lt_pow_right (by omega) (by omega)
  refine ⟨?_, ?_, ?_⟩
  · intro hs
    obtain ⟨k, hk, hk2, hk3⟩ := next_power_of_two_spec s (by omega)
    have hkle : 2 ^ k ≤ 2 ^ 62 := hk3 62 hs
    refine ⟨k, ?_, hk2, hk3⟩
    unfold ring_new checked_next_power_of_two
    rw [if_pos (by omega : s ≤ 2 ^ 63)]
    dsimp only
    rw [hk]
    rw [if_neg (by unfold isizeMaxNat; omega)]
    unfold multi_cursor_tracker_new
    have hpos : 0 < 2 ^ k := Nat.pos_pow_of_pos _ (by omega)
    rw [if_neg (by omega)]
  · intro hs
    by_cases hs63 : s ≤ 2 ^ 63
    · obtain ⟨k, hk, hk2, _⟩ := next_power_of_two_spec s (by omega)
      have hklt : 2 ^ 62 < 2 ^ k := by omega
      have hk63 : 63 ≤ k := by
        by_contra hcon
        have : 2 ^ k ≤ 2 ^ 62 := Nat.pow_le_pow_right (by omega) (by omega)
        omega
      have hbig : 2 ^ 63 ≤ 2 ^ k := Nat.pow_le_pow_right (by omega) hk63
      unfold ring_new checked_next_power_of_two
      rw [if_pos hs63]
      dsimp only
      rw [hk]
      rw [if_pos (by unfold isizeMaxNat; omega)]
    · unfold ring_new checked_next_power_of_two
      rw [if_neg hs63]
  · intro hcon
    unfold ring_new checked_next_power_of_two at hcon
    by_cases hs63 : s ≤ 2 ^ 63
    · rw [if_pos hs63] at hcon
      dsimp only at hcon
      obtain ⟨k, hk, hk2, _⟩ := next_power_of_two_spec s (by omega)
      rw [hk] at hcon
      by_cases hbig : 2 ^ k > isizeMaxNat
      · rw [if_pos hbig] at hcon
        cases hcon
      · rw [if_neg hbig] at hcon
        unfold multi_cursor_tracker_new at hcon
        have hpos : 0 < 2 ^ k := Nat.pos_pow_of_pos _ (by omega)
        rw [if_neg (by omega)] at hcon
        cases hcon
    · rw [if_neg hs63] at hcon
      cases hcon

theorem c7_construction_amended_witness :
    (∃ k : Nat, ring_new 5 = .ok (2 ^ k) ∧ 5 ≤ 2 ^ k ∧
      ∀ j : Nat, (5 : Nat) ≤ 2 ^ j → 2 ^ k ≤ 2 ^ j) ∧
    ring_new (2 ^ 62 + 1) = .error .BufferTooBig ∧
    ring_new 5 = .ok 8 ∧ ring_new 8 = .ok 8 := by
  refine ⟨(c7_construction_amended 5).1 (by decide),
    ((c7_construction_amended (2 ^ 62 + 1)).2).1 (by decide), rfl, rfl⟩

namespace Chan

inductive ReaderError where
  | NoNewData
  | DestinationFull
  deriving DecidableEq, Repr

/-- A `Vec` destination: contents and capacity. -/
structure RVec (T : Type) where
  data : List T
  cap : Nat
  deriving DecidableEq, Repr

/-- `ReceiverCore::batch_recv` (src/channel/receiver.rs): error
`DestinationFull` when the destination has no remaining capacity, error
`NoNewData` when the cursor is past `committed`; otherwise read
`num_available.clamp(0, remaining)` values starting at
`internal_cursor % capacity`, as one copy or two when the range wraps.
Returns the error tag (if any), the cursor after the call (the source never
advances it) and the destination after the call. -/
def batch_recv {T : Type} (committed internal_cursor : Int) (capacity : Nat)
    (ring : List T) (res : RVec T) :
    Except ReaderError Unit × Int × RVec T :=
  if res.cap - res.data.length = 0 then (.error .DestinationFull, internal_cursor, res)
  else if internal_cursor > committed then (.error .NoNewData, internal_cursor, res)
  else if min (committed + 1 - internal_cursor).toNat (res.cap - res.data.length) = 0 then
    (.error .NoNewData, internal_cursor, res)
  else if (internal_cursor % (capacity : Int)).toNat
      + min (committed + 1 - internal_cursor).toNat (res.cap - res.data.length)
      ≤ capacity then
    (.ok (), internal_cursor,
      ⟨res.data ++ (ring.drop ((internal_cursor % (capacity : Int)).toNat)).take
        (min (committed + 1 - internal_cursor).toNat (res.cap - res.data.length)),
       res.cap⟩)
  else
    (.ok (), internal_cursor,
      ⟨(res.data ++ (ring.drop ((internal_cursor % (capacity : Int)).toNat)).take
          (capacity - (internal_cursor % (capacity : Int)).toNat))
        ++ ring.take ((internal_cursor % (capacity : Int)).toNat
          + min (committed + 1 - internal_cursor).toNat (res.cap - res.data.length)
          - capacity),
       res.cap⟩)

/-- C8: `batch_recv` returns DestinationFull when the destination has no
remaining capacity and NoNewData when the cursor is past the published
watermark, leaving cursor and destination unchanged in both error cases; in
every case the cursor and the destination's capacity are unchanged and at
most the destination's remaining capacity values are appended. -/
theorem c8_batch_recv_error_cases {T : Type} (committed internal_cursor : Int)
    (capacity : Nat) (ring : List T) (res : RVec T) (hcap : 0 < capacity) :
    (res.cap - res.data.length = 0 →
      batch_recv committed internal_cursor capacity ring res
        = (.error .DestinationFull, internal_cursor, res)) ∧
    (0 < res.cap - res.data.length → internal_cursor > committed →
      batch_recv committed internal_cursor capacity ring res
        = (.error .NoNewData, internal_cursor, res)) ∧
    (∀ (tag : Except ReaderError Unit) (cursor' : Int) (res' : RVec T),
      batch_recv committed internal_cursor capacity ring res = (tag, cursor', res') →
      cursor' = internal_cursor ∧ res'.cap = res.cap ∧
      res'.data.length ≤ res.data.length + (res.cap - res.data.length)) := by
  refine ⟨?_, ?_, ?_⟩
  · intro h
    unfold batch_recv
    rw [if_pos h]
  · intro h1 h2
    unfold batch_recv
    rw [if_neg (by omega), if_pos h2]
  · intro tag cursor' res' h
    have hmod : (internal_cursor % (capacity : Int)).toNat < capacity := by
      have h1 : 0 ≤ internal_cursor % (capacity : Int) :=
        Int.emod_nonneg _ (by omega)
      have h2 : internal_cursor % (capacity : Int) < (capacity : Int) :=
        Int.emod_lt_of_pos _ (by omega)
      omega
    unfold batch_recv at h
    split at h
    · injection h with h1 h2
      injection h2 with h2 h3
      subst h1 h2 h3
      omega
    · split at h
      · injection h with h1 h2
        injection h2 with h2 h3
        subst h1 h2 h3
        omega
      · split at h
        · injection h with h1 h2
          injection h2 with h2 h3
          subst h1 h2 h3
          omega
        · split at h
          · injection h with h1 h2
            injection h2 with h2 h3
            subst h1 h2 h3
            refine ⟨rfl, rfl, ?_⟩
            simp only [List.length_append, List.length_take, List.length_drop]
            omega
          · injection h with h1 h2
            injection h2 with h2 h3
            subst h1 h2 h3
            refine ⟨rfl, rfl, ?_⟩
            simp only [List.length_append, List.length_take, List.length_drop]
            omega

theorem c8_batch_recv_error_cases_witness :
    (batch_recv 5 0 4 [10, 11, 12, 13] (⟨[9, 9], 2⟩ : RVec Int)
      = (.error .DestinationFull, 0, ⟨[9, 9], 2⟩)) ∧
    (batch_recv (-1) 0 4 [10, 11, 12, 13] (⟨[], 2⟩ : RVec Int)
      = (.error .NoNewData, 0, ⟨[], 2⟩)) ∧
    ((⟨[10, 11], 2⟩ : RVec Int).data.length ≤ ([] : List Int).length + (2 - ([] : List Int).length)) := by
  refine ⟨(c8_batch_recv_error_cases 5 0 4 [10, 11, 12, 13] ⟨[9, 9], 2⟩ (by decide)).1
      (by decide),
    (c8_batch_recv_error_cases (-1) 0 4 [10, 11, 12, 13] ⟨[], 2⟩ (by decide)).2.1
      (by decide) (by decide),
    ?_⟩
  exact ((c8_batch_recv_error_cases 1 0 4 [10, 11, 12, 13] ⟨[], 2⟩ (by decide)).2.2
    (.ok ()) 0 ⟨[10, 11], 2⟩ rfl).2.2

end Chan

theorem c2_sequential_publish_witness :
    ((-1 : Int) = 0 - 1 ∧ (0 : Int) = 0) ∧
    ((2 : Int) = (([0, 1, 2] : List Int).length : Int) - 1 ∧
      ∀ k : Nat, k < ([0, 1, 2] : List Int).length →
        ([0, 1, 2] : List Int).getD k 0 = (k : Int)) :=
  ⟨c2_sequential_publish.1 (-1) 0 0 (by decide),
   c2_sequential_publish.2 [0, 1, 2] 2 (by decide)⟩

end Nexusq
